import Mathlib

/-!
Verification of the two numeric utilities of this repository:
`softmax` (15-softmax/softmax.py) and `cross_entropy` (20_cross_entropy.py).

`softmax` is embedded over the exact reals: the Python loop
`for i in L: denominator += np.exp(i)` becomes a `List.foldl`, and the
result-building loop becomes a `List.map`.

`cross_entropy` is `-np.sum(Y * np.log(P) + (1 - Y) * np.log(1 - P))` over
numpy float arrays.  It is embedded twice: once over an IEEE-754-style
extended value type (`FloatVal`, a finite real, an infinity, or a NaN) with
numpy's 1-D broadcasting rules for the elementwise operations, and once over
the exact reals (`cross_entropy_real`, meaningful when every logarithm is
taken at a positive argument).  The two embeddings are proved to agree when
the lengths match and every prediction lies in (0,1).
-/

/-- Embedding of `softmax` from `softmax.py`: accumulate `denominator`
over the list with `np.exp`, then map each element to
`np.exp(i) / denominator`. -/
noncomputable def softmax (L : List ℝ) : List ℝ :=
  let denominator := L.foldl (fun acc i => acc + Real.exp i) 0
  L.map fun i => Real.exp i / denominator

/-- An IEEE-754-style extended value as produced by numpy float64
arithmetic: a finite real number, positive or negative infinity, or NaN
(rounding of finite values is not modelled). -/
inductive FloatVal where
  | fin : ℝ → FloatVal
  | inf : FloatVal
  | ninf : FloatVal
  | nan : FloatVal

instance : Inhabited FloatVal := ⟨FloatVal.nan⟩

namespace FloatVal

/-- IEEE negation. -/
def neg : FloatVal → FloatVal
  | fin r => fin (-r)
  | inf => ninf
  | ninf => inf
  | nan => nan

/-- IEEE addition: NaN propagates, opposite infinities give NaN. -/
noncomputable def add : FloatVal → FloatVal → FloatVal
  | nan, _ => nan
  | _, nan => nan
  | fin a, fin b => fin (a + b)
  | inf, ninf => nan
  | ninf, inf => nan
  | inf, _ => inf
  | _, inf => inf
  | ninf, _ => ninf
  | _, ninf => ninf

/-- IEEE multiplication: NaN propagates, zero times an infinity is NaN,
otherwise infinities obey the sign rule. -/
noncomputable def mul : FloatVal → FloatVal → FloatVal
  | nan, _ => nan
  | _, nan => nan
  | fin a, fin b => fin (a * b)
  | fin a, inf => if 0 < a then inf else if a < 0 then ninf else nan
  | fin a, ninf => if 0 < a then ninf else if a < 0 then inf else nan
  | inf, fin b => if 0 < b then inf else if b < 0 then ninf else nan
  | ninf, fin b => if 0 < b then ninf else if b < 0 then inf else nan
  | inf, inf => inf
  | inf, ninf => ninf
  | ninf, inf => ninf
  | ninf, ninf => inf

/-- IEEE natural logarithm as computed by `np.log`: the log of a positive
real, `-inf` at zero, NaN on negative inputs, `inf` at `inf`. -/
noncomputable def log : FloatVal → FloatVal
  | fin x => if 0 < x then fin (Real.log x) else if x = 0 then ninf else nan
  | inf => inf
  | ninf => nan
  | nan => nan

/-- A value is finite when it is neither an infinity nor NaN. -/
def isFinite : FloatVal → Bool
  | fin _ => true
  | _ => false

end FloatVal

/-- numpy 1-D broadcasting for a binary elementwise operation: arrays of
equal length combine elementwise; a length-1 array is stretched across the
other; any other length mismatch is an error (`none`). -/
noncomputable def broadcast2 (f : FloatVal → FloatVal → FloatVal)
    (a b : List FloatVal) : Option (List FloatVal) :=
  if a.length = b.length then some (List.zipWith f a b)
  else if a.length = 1 then some (b.map (f a.headI))
  else if b.length = 1 then some (a.map fun x => f x b.headI)
  else none

/-- `np.sum`: fold of IEEE addition starting from 0. -/
noncomputable def fsum (l : List FloatVal) : FloatVal :=
  l.foldl FloatVal.add (FloatVal.fin 0)

/-- Embedding of `cross_entropy` from `20_cross_entropy.py`:
`-np.sum(Y * np.log(P) + (1 - Y) * np.log(1 - P))` over numpy float
arrays, with 1-D broadcasting for the three elementwise operations;
`none` models the broadcast error on incompatible lengths. -/
noncomputable def cross_entropy (Y P : List ℝ) : Option FloatVal :=
  (broadcast2 FloatVal.mul (Y.map FloatVal.fin)
      ((P.map FloatVal.fin).map FloatVal.log)).bind fun t1 =>
    (broadcast2 FloatVal.mul (Y.map fun y => FloatVal.fin (1 - y))
        ((P.map fun p => FloatVal.fin (1 - p)).map FloatVal.log)).bind fun t2 =>
      (broadcast2 FloatVal.add t1 t2).bind fun t3 =>
        some (FloatVal.neg (fsum t3))

/-- The same formula in exact real arithmetic, mirroring the elementwise
structure of the source; meaningful when every logarithm is taken at a
positive argument. -/
noncomputable def cross_entropy_real (Y P : List ℝ) : ℝ :=
  -(List.zipWith (fun a b => a + b)
      (List.zipWith (fun a b => a * b) Y (P.map Real.log))
      (List.zipWith (fun a b => a * b) (Y.map fun y => 1 - y)
        ((P.map fun p => 1 - p).map Real.log))).sum

/-- The i-th summand of the cross-entropy formula, exact version. -/
noncomputable def ceTermR (y p : ℝ) : ℝ :=
  y * Real.log p + (1 - y) * Real.log (1 - p)

/-- The i-th summand of the cross-entropy formula, IEEE version. -/
noncomputable def ceTermV (y p : ℝ) : FloatVal :=
  FloatVal.add (FloatVal.mul (FloatVal.fin y) (FloatVal.log (FloatVal.fin p)))
    (FloatVal.mul (FloatVal.fin (1 - y)) (FloatVal.log (FloatVal.fin (1 - p))))

/-- A `cross_entropy` result counts as finite only when it is an actual
finite numeric value. -/
def isFiniteResult : Option FloatVal → Bool
  | some (FloatVal.fin _) => true
  | _ => false

theorem foldl_add_exp (L : List ℝ) (a : ℝ) :
    L.foldl (fun acc i => acc + Real.exp i) a = a + (L.map Real.exp).sum := by
  induction L generalizing a with
  | nil => simp
  | cons x xs ih => simp [ih, add_assoc]

theorem softmax_eq_map (L : List ℝ) :
    softmax L = L.map fun x => Real.exp x / (L.map Real.exp).sum := by
  simp [softmax, foldl_add_exp]

theorem sum_map_exp_fin (L : List ℝ) :
    (L.map Real.exp).sum = ∑ j : Fin L.length, Real.exp (L.get j) := by
  rw [← List.ofFn_get_eq_map, List.sum_ofFn]

theorem sum_map_exp_pos (L : List ℝ) (h : L ≠ []) :
    0 < (L.map Real.exp).sum := by
  apply List.sum_pos
  · intro x hx
    obtain ⟨y, _, rfl⟩ := List.mem_map.1 hx
    exact Real.exp_pos y
  · simpa using h

theorem softmax_two_zeros : softmax [(0 : ℝ), 0] = [1 / 2, 1 / 2] := by
  norm_num [softmax, Real.exp_zero]

theorem getD_map_fin (f : ℝ → ℝ) (L : List ℝ) (i : Fin L.length) :
    (L.map f).getD i 0 = f (L.get i) := by
  have hi : (i : ℕ) < (L.map f).length := by simpa using i.isLt
  rw [List.getD_eq_getElem _ _ hi, List.getElem_map]
  simp

theorem FloatVal.log_fin_of_pos {x : ℝ} (hx : 0 < x) :
    log (fin x) = fin (Real.log x) := by
  simp [log, hx]

theorem FloatVal.isFinite_neg (v : FloatVal) : (neg v).isFinite = v.isFinite := by
  cases v <;> rfl

theorem FloatVal.isFinite_add (a b : FloatVal) :
    (add a b).isFinite = true ↔ a.isFinite = true ∧ b.isFinite = true := by
  cases a <;> cases b <;> simp [add, isFinite]

/-- Claim C9: on the empty input list, `softmax` returns the empty list:
the second loop produces no element, so the zero denominator is never used
in any division and no error arises. -/
theorem softmax_empty : softmax ([] : List ℝ) = [] := rfl

/-- Claim C1: for a non-empty input list of N reals, `softmax` returns a
list of exactly N values whose i-th element is `exp (L i)` divided by the
sum of `exp (L j)` over all j, in input order. -/
theorem softmax_returns_normalized_exponentials (L : List ℝ) (h : L ≠ []) :
    (softmax L).length = L.length ∧
    ∀ i : Fin L.length,
      (softmax L).getD i 0 =
        Real.exp (L.get i) / ∑ j : Fin L.length, Real.exp (L.get j) := by
  refine ⟨by simp [softmax_eq_map], ?_⟩
  intro i
  rw [softmax_eq_map, getD_map_fin, sum_map_exp_fin]

theorem softmax_returns_normalized_exponentials_witness :
    ([(0 : ℝ)] ≠ []) ∧
    ((softmax [(0 : ℝ)]).length = [(0 : ℝ)].length ∧
      ∀ i : Fin [(0 : ℝ)].length,
        (softmax [(0 : ℝ)]).getD i 0 =
          Real.exp ([(0 : ℝ)].get i) /
            ∑ j : Fin [(0 : ℝ)].length, Real.exp ([(0 : ℝ)].get j)) :=
  ⟨by simp, softmax_returns_normalized_exponentials [(0 : ℝ)] (by simp)⟩

/-- Claim C3: for a non-empty input list, the `softmax` output has the
same length as the input and, in exact real arithmetic, its values sum
exactly to 1. -/
theorem softmax_sums_to_one (L : List ℝ) (h : L ≠ []) :
    (softmax L).length = L.length ∧ (softmax L).sum = 1 := by
  refine ⟨by simp [softmax_eq_map], ?_⟩
  have hD : (L.map Real.exp).sum ≠ 0 := ne_of_gt (sum_map_exp_pos L h)
  rw [softmax_eq_map]
  calc (L.map fun x => Real.exp x / (L.map Real.exp).sum).sum
      = (L.map fun x => Real.exp x * ((L.map Real.exp).sum)⁻¹).sum := by
        simp [div_eq_mul_inv]
    _ = (L.map Real.exp).sum * ((L.map Real.exp).sum)⁻¹ :=
        List.sum_map_mul_right L Real.exp ((L.map Real.exp).sum)⁻¹
    _ = 1 := mul_inv_cancel₀ hD

theorem softmax_sums_to_one_witness :
    ([(0 : ℝ)] ≠ []) ∧
    ((softmax [(0 : ℝ)]).length = [(0 : ℝ)].length ∧
      (softmax [(0 : ℝ)]).sum = 1) :=
  ⟨by simp, softmax_sums_to_one [(0 : ℝ)] (by simp)⟩

/-- Claim C4, counterexample: on the singleton input `[0]` the single
output value of `softmax` is exactly 1, which does not lie strictly
below 1, so not every output value lies in the open interval (0,1). -/
theorem softmax_singleton_hits_one :
    softmax [(0 : ℝ)] = [1] ∧ ¬ ((1 : ℝ) < 1) := by
  constructor
  · norm_num [softmax, Real.exp_zero]
  · exact lt_irrefl 1

/-- Claim C4 as amended: for a non-empty input list every output value of
`softmax` lies in the half-open interval (0,1]; when the input has at
least two elements every output value lies strictly in (0,1). -/
theorem softmax_output_in_unit_interval (L : List ℝ) (h : L ≠ []) :
    ∀ y ∈ softmax L, (0 < y ∧ y ≤ 1) ∧ (2 ≤ L.length → y < 1) := by
  intro y hy
  rw [softmax_eq_map] at hy
  obtain ⟨x, hxL, rfl⟩ := List.mem_map.1 hy
  have hD : 0 < (L.map Real.exp).sum := sum_map_exp_pos L h
  have hmem : Real.exp x ∈ L.map Real.exp := List.mem_map_of_mem Real.exp hxL
  have hle : Real.exp x ≤ (L.map Real.exp).sum :=
    List.single_le_sum (fun a ha => by
      obtain ⟨b, _, rfl⟩ := List.mem_map.1 ha
      exact (Real.exp_pos b).le) _ hmem
  refine ⟨⟨div_pos (Real.exp_pos x) hD, (div_le_one hD).2 hle⟩, ?_⟩
  intro h2
  have hperm : List.Perm (L.map Real.exp)
      (Real.exp x :: (L.map Real.exp).erase (Real.exp x)) :=
    List.perm_cons_erase hmem
  have hrest_ne : (L.map Real.exp).erase (Real.exp x) ≠ [] := by
    have hlen : ((L.map Real.exp).erase (Real.exp x)).length = L.length - 1 := by
      rw [List.length_erase_of_mem hmem, List.length_map]
    intro hnil
    rw [hnil] at hlen
    simp at hlen
    omega
  have hrest_pos : 0 < ((L.map Real.exp).erase (Real.exp x)).sum := by
    apply List.sum_pos _ _ hrest_ne
    intro a ha
    obtain ⟨b, _, rfl⟩ := List.mem_map.1 (List.erase_subset _ _ ha)
    exact Real.exp_pos b
  have hlt : Real.exp x < (L.map Real.exp).sum := by
    rw [hperm.sum_eq, List.sum_cons]
    linarith
  exact (div_lt_one hD).2 hlt

theorem softmax_output_in_unit_interval_witness :
    ([(0 : ℝ), 0] ≠ []) ∧
    (((0 : ℝ) < 1 / 2 ∧ (1 / 2 : ℝ) ≤ 1) ∧
      (2 ≤ [(0 : ℝ), 0].length → (1 / 2 : ℝ) < 1)) :=
  ⟨by simp,
    softmax_output_in_unit_interval [(0 : ℝ), 0] (by simp) (1 / 2)
      (by rw [softmax_two_zeros]; simp)⟩

/-- Claim C10: in exact real arithmetic `softmax` is shift-invariant:
adding the same constant to every input element leaves the output
unchanged. -/
theorem softmax_shift_invariant (L : List ℝ) (c : ℝ) (h : L ≠ []) :
    softmax (L.map fun x => x + c) = softmax L := by
  rw [softmax_eq_map, softmax_eq_map, List.map_map]
  have hDc : ((L.map fun x => x + c).map Real.exp).sum =
      (L.map Real.exp).sum * Real.exp c := by
    rw [List.map_map]
    calc (L.map (Real.exp ∘ fun x => x + c)).sum
        = (L.map fun x => Real.exp x * Real.exp c).sum := by
          simp [Function.comp_def, Real.exp_add]
      _ = (L.map Real.exp).sum * Real.exp c :=
          List.sum_map_mul_right L Real.exp (Real.exp c)
  rw [hDc]
  apply List.map_congr_left
  intro x hx
  show Real.exp (x + c) / ((L.map Real.exp).sum * Real.exp c) =
    Real.exp x / (L.map Real.exp).sum
  rw [Real.exp_add, mul_comm (Real.exp x) (Real.exp c),
    mul_comm ((L.map Real.exp).sum) (Real.exp c),
    mul_div_mul_left _ _ (Real.exp_ne_zero c)]

theorem softmax_shift_invariant_witness :
    ([(0 : ℝ)] ≠ []) ∧
    softmax (([(0 : ℝ)]).map fun x => x + 1) = softmax [(0 : ℝ)] :=
  ⟨by simp, softmax_shift_invariant [(0 : ℝ)] 1 (by simp)⟩

theorem broadcast2_of_length_eq (f : FloatVal → FloatVal → FloatVal)
    (a b : List FloatVal) (hl : a.length = b.length) :
    broadcast2 f a b = some (List.zipWith f a b) := by
  rw [broadcast2, if_pos hl]

theorem broadcast2_none (f : FloatVal → FloatVal → FloatVal)
    (a b : List FloatVal) (hl : a.length ≠ b.length)
    (ha : a.length ≠ 1) (hb : b.length ≠ 1) :
    broadcast2 f a b = none := by
  rw [broadcast2, if_neg hl, if_neg ha, if_neg hb]

theorem zipWith_termV (Y P : List ℝ) :
    List.zipWith FloatVal.add
        (List.zipWith FloatVal.mul (Y.map FloatVal.fin)
          ((P.map FloatVal.fin).map FloatVal.log))
        (List.zipWith FloatVal.mul (Y.map fun y => FloatVal.fin (1 - y))
          ((P.map fun p => FloatVal.fin (1 - p)).map FloatVal.log)) =
      List.zipWith ceTermV Y P := by
  induction Y generalizing P with
  | nil => simp
  | cons y ys ih =>
    cases P with
    | nil => simp
    | cons p ps =>
      simp only [List.map_cons, List.zipWith_cons_cons]
      rw [ih ps]
      rfl

theorem cross_entropy_of_length_eq (Y P : List ℝ) (h : Y.length = P.length) :
    cross_entropy Y P =
      some (FloatVal.neg (fsum (List.zipWith ceTermV Y P))) := by
  rw [cross_entropy,
    broadcast2_of_length_eq _ _ _ (by simp [h]),
    broadcast2_of_length_eq _ _ _ (by simp [h]),
    Option.some_bind, Option.some_bind,
    broadcast2_of_length_eq _ _ _ (by simp [h]),
    Option.some_bind, zipWith_termV]

theorem zipWith_termR (Y P : List ℝ) :
    List.zipWith (fun a b => a + b)
        (List.zipWith (fun a b => a * b) Y (P.map Real.log))
        (List.zipWith (fun a b => a * b) (Y.map fun y => 1 - y)
          ((P.map fun p => 1 - p).map Real.log)) =
      List.zipWith ceTermR Y P := by
  induction Y generalizing P with
  | nil => simp
  | cons y ys ih =>
    cases P with
    | nil => simp
    | cons p ps =>
      simp only [List.map_cons, List.zipWith_cons_cons]
      rw [ih ps]
      rfl

theorem cross_entropy_real_eq (Y P : List ℝ) :
    cross_entropy_real Y P = -(List.zipWith ceTermR Y P).sum := by
  rw [cross_entropy_real, zipWith_termR]

theorem foldl_add_fin (l : List ℝ) (a : ℝ) :
    (l.map FloatVal.fin).foldl FloatVal.add (FloatVal.fin a) =
      FloatVal.fin (a + l.sum) := by
  induction l generalizing a with
  | nil => simp
  | cons x xs ih => simp [FloatVal.add, ih, add_assoc]

theorem fsum_map_fin (l : List ℝ) :
    fsum (l.map FloatVal.fin) = FloatVal.fin l.sum := by
  rw [fsum, foldl_add_fin]
  simp

theorem foldl_add_isFinite (l : List FloatVal) (acc : FloatVal)
    (h : (l.foldl FloatVal.add acc).isFinite = true) :
    acc.isFinite = true ∧ ∀ x ∈ l, x.isFinite = true := by
  induction l generalizing acc with
  | nil => exact ⟨h, by simp⟩
  | cons y ys ih =>
    obtain ⟨hacc, hys⟩ := ih (FloatVal.add acc y) h
    obtain ⟨h1, h2⟩ := (FloatVal.isFinite_add acc y).1 hacc
    exact ⟨h1, by simpa [h2] using hys⟩

theorem fsum_not_finite {l : List FloatVal} {x : FloatVal}
    (hx : x ∈ l) (hxf : x.isFinite = false) : (fsum l).isFinite = false := by
  by_contra hc
  have : (fsum l).isFinite = true := by
    cases hfin : (fsum l).isFinite
    · exact absurd hfin hc
    · rfl
  have := (foldl_add_isFinite l (FloatVal.fin 0) this).2 x hx
  rw [hxf] at this
  cases this

theorem ceTermV_eq_fin (y p : ℝ) (h0 : 0 < p) (h1 : p < 1) :
    ceTermV y p = FloatVal.fin (ceTermR y p) := by
  rw [ceTermV, ceTermR, FloatVal.log_fin_of_pos h0,
    FloatVal.log_fin_of_pos (by linarith : (0:ℝ) < 1 - p)]
  rfl

theorem zipWith_termV_eq_map (Y P : List ℝ)
    (hP : ∀ p ∈ P, 0 < p ∧ p < 1) :
    List.zipWith ceTermV Y P =
      (List.zipWith ceTermR Y P).map FloatVal.fin := by
  induction Y generalizing P with
  | nil => simp
  | cons y ys ih =>
    cases P with
    | nil => simp
    | cons p ps =>
      have hp := hP p (List.mem_cons_self p ps)
      simp only [List.zipWith_cons_cons, List.map_cons]
      rw [ceTermV_eq_fin y p hp.1 hp.2,
        ih ps fun q hq => hP q (List.mem_cons_of_mem p hq)]

/-- Agreement of the IEEE embedding with the exact-real embedding: when
the lengths match and every prediction lies strictly between 0 and 1, the
numpy computation returns the finite real given by the formula. -/
theorem cross_entropy_agrees (Y P : List ℝ) (h : Y.length = P.length)
    (hP : ∀ p ∈ P, 0 < p ∧ p < 1) :
    cross_entropy Y P = some (FloatVal.fin (cross_entropy_real Y P)) := by
  rw [cross_entropy_of_length_eq Y P h, zipWith_termV_eq_map Y P hP,
    fsum_map_fin, cross_entropy_real_eq]
  rfl

theorem isFiniteResult_some (v : FloatVal) :
    isFiniteResult (some v) = v.isFinite := by
  cases v <;> rfl

theorem ceTermV_one_zero : ceTermV 1 0 = FloatVal.ninf := by
  rw [ceTermV]
  norm_num [FloatVal.log, FloatVal.mul, FloatVal.add, Real.log_one]

theorem ceTermV_zero_one : ceTermV 0 1 = FloatVal.ninf := by
  rw [ceTermV]
  norm_num [FloatVal.log, FloatVal.mul, FloatVal.add, Real.log_one]

theorem mem_zipWith_of_mem_zip {f : ℝ → ℝ → FloatVal} {a b : ℝ} :
    ∀ {l1 l2 : List ℝ}, (a, b) ∈ l1.zip l2 → f a b ∈ List.zipWith f l1 l2
  | [], l2, h => by simp at h
  | x :: xs, [], h => by simp at h
  | x :: xs, y :: ys, h => by
    rcases List.mem_cons.1 h with h1 | h2
    · obtain ⟨rfl, rfl⟩ := Prod.mk.injEq .. ▸ h1
      exact List.mem_cons_self _ _
    · exact List.mem_cons_of_mem _ (mem_zipWith_of_mem_zip h2)

/-- Claim C6: when the two lists have equal length and at some position
the prediction is exactly 0 while the label is 1, or exactly 1 while the
label is 0, `cross_entropy` still returns a value, but that value is
non-finite (the fatal summand is `-inf`, and no infinite or NaN summand
can ever fold back to a finite IEEE sum). -/
theorem cross_entropy_nonfinite_on_contradiction (Y P : List ℝ)
    (h : Y.length = P.length)
    (hbad : ((1 : ℝ), (0 : ℝ)) ∈ Y.zip P ∨ ((0 : ℝ), (1 : ℝ)) ∈ Y.zip P) :
    cross_entropy Y P ≠ none ∧
      isFiniteResult (cross_entropy Y P) = false := by
  rw [cross_entropy_of_length_eq Y P h]
  refine ⟨by simp, ?_⟩
  have hmem : FloatVal.ninf ∈ List.zipWith ceTermV Y P := by
    rcases hbad with hb | hb
    · have := mem_zipWith_of_mem_zip (f := ceTermV) hb
      rwa [ceTermV_one_zero] at this
    · have := mem_zipWith_of_mem_zip (f := ceTermV) hb
      rwa [ceTermV_zero_one] at this
  rw [isFiniteResult_some, FloatVal.isFinite_neg]
  exact fsum_not_finite hmem rfl

theorem cross_entropy_nonfinite_on_contradiction_witness :
    ([(1 : ℝ)].length = [(0 : ℝ)].length) ∧
    (((1 : ℝ), (0 : ℝ)) ∈ List.zip [(1 : ℝ)] [(0 : ℝ)] ∨
      ((0 : ℝ), (1 : ℝ)) ∈ List.zip [(1 : ℝ)] [(0 : ℝ)]) ∧
    (cross_entropy [(1 : ℝ)] [(0 : ℝ)] ≠ none ∧
      isFiniteResult (cross_entropy [(1 : ℝ)] [(0 : ℝ)]) = false) :=
  ⟨rfl, Or.inl (by simp),
    cross_entropy_nonfinite_on_contradiction [(1 : ℝ)] [(0 : ℝ)] rfl
      (Or.inl (by simp))⟩

theorem ceTermR_nonpos {y p : ℝ} (hy0 : 0 ≤ y) (hy1 : y ≤ 1)
    (hp0 : 0 < p) (hp1 : p < 1) : ceTermR y p ≤ 0 := by
  have h1 : Real.log p ≤ 0 := Real.log_nonpos hp0.le hp1.le
  have h2 : Real.log (1 - p) ≤ 0 := Real.log_nonpos (by linarith) (by linarith)
  have h3 : y * Real.log p ≤ 0 := mul_nonpos_of_nonneg_of_nonpos hy0 h1
  have h4 : (1 - y) * Real.log (1 - p) ≤ 0 :=
    mul_nonpos_of_nonneg_of_nonpos (by linarith) h2
  rw [ceTermR]
  linarith

theorem zipWith_termR_sum_nonpos :
    ∀ (Y P : List ℝ), (∀ y ∈ Y, 0 ≤ y ∧ y ≤ 1) →
      (∀ p ∈ P, 0 < p ∧ p < 1) → (List.zipWith ceTermR Y P).sum ≤ 0
  | [], _, _, _ => by simp
  | _ :: _, [], _, _ => by simp
  | y :: ys, p :: ps, hY, hP => by
    have hy := hY y (List.mem_cons_self y ys)
    have hp := hP p (List.mem_cons_self p ps)
    have hrest := zipWith_termR_sum_nonpos ys ps
      (fun a ha => hY a (List.mem_cons_of_mem y ha))
      (fun a ha => hP a (List.mem_cons_of_mem p ha))
    have hterm := ceTermR_nonpos hy.1 hy.2 hp.1 hp.2
    rw [List.zipWith_cons_cons, List.sum_cons]
    linarith

/-- Claim C7: when the lengths match, every label lies in [0,1] and every
prediction lies strictly inside (0,1), `cross_entropy` returns the finite
real given by the formula, and that real is non-negative. -/
theorem cross_entropy_nonneg (Y P : List ℝ) (h : Y.length = P.length)
    (hY : ∀ y ∈ Y, 0 ≤ y ∧ y ≤ 1) (hP : ∀ p ∈ P, 0 < p ∧ p < 1) :
    cross_entropy Y P = some (FloatVal.fin (cross_entropy_real Y P)) ∧
      0 ≤ cross_entropy_real Y P := by
  refine ⟨cross_entropy_agrees Y P h hP, ?_⟩
  rw [cross_entropy_real_eq, neg_nonneg]
  exact zipWith_termR_sum_nonpos Y P hY hP

theorem cross_entropy_nonneg_witness :
    ([(1 : ℝ)].length = [(1 : ℝ) / 2].length) ∧
    (∀ y ∈ [(1 : ℝ)], 0 ≤ y ∧ y ≤ 1) ∧
    (∀ p ∈ [(1 : ℝ) / 2], 0 < p ∧ p < 1) ∧
    (cross_entropy [(1 : ℝ)] [(1 : ℝ) / 2] =
        some (FloatVal.fin (cross_entropy_real [(1 : ℝ)] [(1 : ℝ) / 2])) ∧
      0 ≤ cross_entropy_real [(1 : ℝ)] [(1 : ℝ) / 2]) :=
  ⟨rfl, by norm_num, by norm_num,
    cross_entropy_nonneg [(1 : ℝ)] [(1 : ℝ) / 2] rfl (by norm_num) (by norm_num)⟩

theorem zipWith_replicate_same (f : ℝ → ℝ → ℝ) (n : ℕ) (a b : ℝ) :
    List.zipWith f (List.replicate n a) (List.replicate n b) =
      List.replicate n (f a b) := by
  induction n with
  | zero => rfl
  | succ m ih => simp [List.replicate_succ, ih]

theorem ceTermR_half : ceTermR (1 / 2) (1 / 2) = -Real.log 2 := by
  have h2 : Real.log ((1 : ℝ) / 2) = -Real.log 2 := by
    rw [one_div, Real.log_inv]
  rw [ceTermR, show (1 : ℝ) - 1 / 2 = 1 / 2 by norm_num, h2]
  ring

theorem cross_entropy_real_half (n : ℕ) :
    cross_entropy_real (List.replicate n ((1 : ℝ) / 2))
        (List.replicate n ((1 : ℝ) / 2)) = (n : ℝ) * Real.log 2 := by
  rw [cross_entropy_real_eq, zipWith_replicate_same, ceTermR_half,
    List.sum_replicate, nsmul_eq_mul]
  ring

/-- Claim C8: on two identical length-n lists of 0.5 entries,
`cross_entropy` returns the finite value `n * ln 2`, which is positive
for n ≥ 1 and proportional to n. -/
theorem cross_entropy_all_half (n : ℕ) (h : 1 ≤ n) :
    cross_entropy (List.replicate n ((1 : ℝ) / 2))
        (List.replicate n ((1 : ℝ) / 2)) =
      some (FloatVal.fin ((n : ℝ) * Real.log 2)) ∧
      0 < (n : ℝ) * Real.log 2 := by
  constructor
  · rw [cross_entropy_agrees _ _ (by simp)
      (fun p hp => by rw [List.eq_of_mem_replicate hp]; norm_num),
      cross_entropy_real_half]
  · have hn0 : 0 < n := h
    exact mul_pos (by exact_mod_cast hn0) (Real.log_pos one_lt_two)

theorem cross_entropy_all_half_witness :
    1 ≤ 1 ∧
    (cross_entropy (List.replicate 1 ((1 : ℝ) / 2))
        (List.replicate 1 ((1 : ℝ) / 2)) =
      some (FloatVal.fin ((1 : ℕ) * Real.log 2)) ∧
      0 < ((1 : ℕ) : ℝ) * Real.log 2) :=
  ⟨le_refl 1, cross_entropy_all_half 1 (le_refl 1)⟩

theorem zipWith_sum_eq_fin_sum (g : ℝ → ℝ → ℝ) :
    ∀ (n : ℕ) (Y P : List ℝ) (hY : Y.length = n) (hP : P.length = n),
      (List.zipWith g Y P).sum =
        ∑ i : Fin n, g (Y.get (Fin.cast hY.symm i)) (P.get (Fin.cast hP.symm i))
  | 0, Y, P, hY, hP => by
    have hy : Y = [] := List.length_eq_zero.1 hY
    subst hy
    simp
  | n + 1, [], P, hY, hP => by simp at hY
  | n + 1, y :: ys, [], hY, hP => by simp at hP
  | n + 1, y :: ys, p :: ps, hY, hP => by
    rw [List.zipWith_cons_cons, List.sum_cons,
      zipWith_sum_eq_fin_sum g n ys ps (by simpa using hY) (by simpa using hP),
      Fin.sum_univ_succ]
    rfl

/-- Claim C2: for equal-length label and prediction lists, the exact-real
rendering of `cross_entropy` equals the negated sum over all indices i of
`y_i * ln p_i + (1 - y_i) * ln (1 - p_i)`. -/
theorem cross_entropy_formula (Y P : List ℝ) (h : Y.length = P.length) :
    cross_entropy_real Y P =
      -∑ i : Fin Y.length,
        (Y.get i * Real.log (P.get (Fin.cast h i)) +
          (1 - Y.get i) * Real.log (1 - P.get (Fin.cast h i))) := by
  rw [cross_entropy_real_eq, zipWith_sum_eq_fin_sum ceTermR Y.length Y P rfl h.symm]
  rfl

theorem cross_entropy_formula_witness :
    ([(1 : ℝ)].length = [(1 : ℝ) / 2].length) ∧
    cross_entropy_real [(1 : ℝ)] [(1 : ℝ) / 2] =
      -∑ i : Fin [(1 : ℝ)].length,
        ([(1 : ℝ)].get i * Real.log ([(1 : ℝ) / 2].get (Fin.cast rfl i)) +
          (1 - [(1 : ℝ)].get i) *
            Real.log (1 - [(1 : ℝ) / 2].get (Fin.cast rfl i))) :=
  ⟨rfl, cross_entropy_formula [(1 : ℝ)] [(1 : ℝ) / 2] rfl⟩

/-- Claim C5, counterexample: with `Y = [1]` (length 1) and
`P = [1/2, 1/2]` (length 2) the lengths differ, yet numpy broadcasting
stretches the singleton across the other array and `cross_entropy`
returns the ordinary finite number `2 * ln 2` instead of any error. -/
theorem cross_entropy_broadcast_cex :
    ([(1 : ℝ)].length ≠ [(1 : ℝ) / 2, 1 / 2].length) ∧
    cross_entropy [(1 : ℝ)] [(1 : ℝ) / 2, 1 / 2] =
      some (FloatVal.fin (2 * Real.log 2)) := by
  constructor
  · norm_num
  · rw [cross_entropy]
    norm_num [broadcast2, FloatVal.log, FloatVal.mul, FloatVal.add,
      FloatVal.neg, fsum]
    rw [one_div, Real.log_inv]
    ring

/-- Claim C5 as amended: a length mismatch in which neither list has
length 1 is a broadcast error, which `cross_entropy` surfaces instead of
returning a numeric result; when either list has length 1, numpy
broadcasting silently stretches it and a numeric result is produced. -/
theorem cross_entropy_length_mismatch (Y P : List ℝ)
    (h : Y.length ≠ P.length) (hY : Y.length ≠ 1) (hP : P.length ≠ 1) :
    cross_entropy Y P = none := by
  rw [cross_entropy, broadcast2_none _ _ _ (by simpa using h)
    (by simpa using hY) (by simpa using hP)]
  rfl

theorem cross_entropy_length_mismatch_witness :
    ([(0 : ℝ), 0].length ≠ [(0 : ℝ), 0, 0].length) ∧
    ([(0 : ℝ), 0].length ≠ 1) ∧ ([(0 : ℝ), 0, 0].length ≠ 1) ∧
    cross_entropy [(0 : ℝ), 0] [(0 : ℝ), 0, 0] = none :=
  ⟨by norm_num, by norm_num, by norm_num,
    cross_entropy_length_mismatch [(0 : ℝ), 0] [(0 : ℝ), 0, 0]
      (by norm_num) (by norm_num) (by norm_num)⟩

theorem cross_entropy_one_zero :
    cross_entropy [(1 : ℝ)] [(0 : ℝ)] = some FloatVal.inf := by
  rw [cross_entropy_of_length_eq [(1 : ℝ)] [(0 : ℝ)] rfl,
    show List.zipWith ceTermV [(1 : ℝ)] [(0 : ℝ)] = [ceTermV 1 0] from rfl,
    ceTermV_one_zero]
  rfl
